import Mathlib

/-!
Verification of the metaservice link-preview service core.

The development shallowly embeds the two components of `src/main.rs`:

* the bounded fetcher `fetch_text`, which streams a response body as byte
  chunks under a 1 MiB cap with boundary-safe truncation, and
* the memoizing result cache used by the `link_preview` handler, which
  stores fetch/parse outcomes (successes and failures alike) under the raw
  URL string with a 24 h time-to-live, and the mapping from outcomes to
  HTTP responses.

Bytes are modelled as natural numbers, byte buffers as `List Nat`, and the
stream of response-body chunks as a `List (List Nat)`.  Fallible code
returns `Option`.
-/

namespace Metaservice

/-- `MAX_AGE` from `src/main.rs`: the cache TTL in seconds (1 day). -/
def MAX_AGE : Nat := 86400

/-- `MAX_SIZE` from `src/main.rs`: the 1 MiB cap on fetched body bytes. -/
def MAX_SIZE : Nat := 1024 * 1024

/-- A byte is a UTF-8 continuation byte (`0x80 ..= 0xBF`). -/
def isCont (b : Nat) : Bool := 0x80 ≤ b && b ≤ 0xBF

/-- Allowed second byte of a three-byte sequence, given the leading byte
(`0xE0` and `0xED` restrict the range to exclude overlong forms and
surrogates). -/
def cont3 (b c : Nat) : Bool :=
  if b = 0xE0 then 0xA0 ≤ c && c ≤ 0xBF
  else if b = 0xED then 0x80 ≤ c && c ≤ 0x9F
  else isCont c

/-- Allowed second byte of a four-byte sequence, given the leading byte
(`0xF0` and `0xF4` restrict the range to exclude overlong forms and
code points beyond `U+10FFFF`). -/
def cont4 (b c : Nat) : Bool :=
  if b = 0xF0 then 0x90 ≤ c && c ≤ 0xBF
  else if b = 0xF4 then 0x80 ≤ c && c ≤ 0x8F
  else isCont c

/-- Model of the validity check performed by Rust's `std::str::from_utf8`:
`utf8Valid bs` holds exactly when `bs` is a well-formed UTF-8 byte
sequence, per the standard byte-pattern table for UTF-8. -/
def utf8Valid : List Nat → Bool
  | [] => true
  | b :: rest =>
    if b ≤ 0x7F then utf8Valid rest
    else if b < 0xC2 then false
    else if b ≤ 0xDF then
      match rest with
      | c1 :: rest2 => isCont c1 && utf8Valid rest2
      | [] => false
    else if b ≤ 0xEF then
      match rest with
      | c1 :: c2 :: rest2 => cont3 b c1 && isCont c2 && utf8Valid rest2
      | _ => false
    else if b ≤ 0xF4 then
      match rest with
      | c1 :: c2 :: c3 :: rest2 =>
          cont4 b c1 && isCont c2 && isCont c3 && utf8Valid rest2
      | _ => false
    else false

/-- Helper scanning downward: the largest `m ≤ n` such that the first `m`
bytes of `bs` form valid UTF-8. -/
def validEndAux (bs : List Nat) : Nat → Nat
  | 0 => 0
  | n + 1 => if utf8Valid (bs.take (n + 1)) then n + 1 else validEndAux bs n

/-- Model of `Utf8Error::valid_up_to` as used on line 60 of `src/main.rs`:
the maximum index `m` such that `from_utf8(&bs[..m])` would succeed
(Rust documents `valid_up_to` by exactly this property; when the whole
slice is valid the code uses its full length, which coincides with the
maximum). -/
def utf8ValidEnd (bs : List Nat) : Nat := validEndAux bs bs.length

/-- The chunk-processing loop of `fetch_text` (`src/main.rs` lines 47-66).
State: the accumulated `text` and the running byte count `totalSize`.
For each chunk: if it fits under `MAX_SIZE` it is appended in full
(erroring, like `from_utf8(&chunk)?`, when the chunk alone is not valid
UTF-8); otherwise the first `MAX_SIZE - totalSize` bytes are cut back to
their largest valid prefix (`valid_up_to`), that prefix is appended, and
the loop stops.  A zero remaining budget stops the loop at once. -/
def fetchTextLoop : List (List Nat) → List Nat → Nat → Option (List Nat)
  | [], text, _ => some text
  | chunk :: rest, text, totalSize =>
    let chunkLen := chunk.length
    if totalSize + chunkLen ≤ MAX_SIZE then
      if utf8Valid chunk then
        fetchTextLoop rest (text ++ chunk) (totalSize + chunkLen)
      else
        none
    else
      let remaining := MAX_SIZE - totalSize
      if remaining = 0 then
        some text
      else
        let validEnd := utf8ValidEnd (chunk.take remaining)
        if 0 < validEnd then
          if utf8Valid ((chunk.take remaining).take validEnd) then
            some (text ++ (chunk.take remaining).take validEnd)
          else
            none
        else
          some text

/-- `fetch_text` from `src/main.rs`, abstracted over the sequence of
response-body chunks delivered by the HTTP client (network and request
errors are outside the model; the function starts from an empty
accumulator and zero consumed bytes). -/
def fetch_text (chunks : List (List Nat)) : Option (List Nat) :=
  fetchTextLoop chunks [] 0

/-- `Metatag` from `src/main.rs`: one `{name, content}` pair. -/
structure Metatag where
  name : String
  content : String
deriving DecidableEq, Repr

/-- `MetaData` from `src/main.rs`: the record of extracted page metadata,
each field an optional string, plus the optional ordered metatag list. -/
structure MetaData where
  title : Option String
  description : Option String
  canonical : Option String
  language : Option String
  rss : Option String
  image : Option String
  amp : Option String
  author : Option String
  date : Option String
  metatags : Option (List Metatag)
deriving DecidableEq, Repr

/-- The cached value type `Result<MetaData, String>` of `src/main.rs`
(the spec's `Outcome`): a successful extraction or a textual error. -/
inductive Outcome where
  | success (m : MetaData)
  | failure (err : String)
deriving DecidableEq, Repr

/-- The cache contents: entries of raw URL key, stored outcome and
insertion timestamp (seconds).  A newer insertion for the same key is
placed in front and shadows the older entry, modelling overwrite. -/
abbrev CacheMap := List (String × Outcome × Nat)

/-- First (most recent) entry stored under exactly the key `url`. -/
def cacheFind : CacheMap → String → Option (Outcome × Nat)
  | [], _ => none
  | (k, v) :: rest, url => if k = url then some v else cacheFind rest url

/-- Modelled from the spec: the moka cache lookup used on line 134 of
`src/main.rs` with `time_to_live(MAX_AGE)` (line 31).  An entry inserted
at time `t` is live at time `now` while `now < t + MAX_AGE`; entries at
least the TTL old are treated as absent. -/
def cacheGet (c : CacheMap) (now : Nat) (url : String) : Option Outcome :=
  match cacheFind c url with
  | some (out, t) => if now < t + MAX_AGE then some out else none
  | none => none

/-- Modelled from the spec: the moka cache insert used on line 138 of
`src/main.rs`; stores `out` under `url` with the current timestamp,
shadowing any previous entry for the same key. -/
def cacheInsert (c : CacheMap) (url : String) (out : Outcome) (now : Nat) : CacheMap :=
  (url, out, now) :: c

/-- Result of one cache-or-compute round: the outcome returned to the
caller, the cache afterwards, and whether the compute (fetch + parse)
path ran. -/
structure GocResult where
  outcome : Outcome
  cache : CacheMap
  fetched : Bool

/-- The cache-aside logic of `link_preview` (`src/main.rs` lines 133-141):
on a live hit return the stored outcome untouched; on a miss run the
compute step (abstracted as the outcome `compute` it would produce),
store it unconditionally under the raw URL with the current timestamp,
and return it.  `fetched` records whether the compute path ran. -/
def get_or_compute (c : CacheMap) (now : Nat) (url : String) (compute : Outcome) : GocResult :=
  match cacheGet c now url with
  | some out => ⟨out, c, false⟩
  | none => ⟨compute, cacheInsert c url compute now, true⟩

/-- A response body: either serialized `MetaData` (the `.json(metadata)`
call, with serde serialization treated as an external collaborator) or a
plain text body. -/
inductive Body where
  | json (m : MetaData)
  | text (s : String)
deriving DecidableEq, Repr

/-- The parts of an HTTP response the handler sets: status code, the
optional `Cache-Control: max-age` value, and the body. -/
structure Response where
  status : Nat
  cacheControlMaxAge : Option Nat
  body : Body
deriving DecidableEq, Repr

/-- The response mapping of `link_preview` (`src/main.rs` lines 142-147):
`Ok(metadata)` becomes a 200 response with `Cache-Control:
max-age=MAX_AGE` (the constant is cast to `u32`, hence the `% 2 ^ 32`)
and the serialized metadata; `Err(error)` becomes a 500 response whose
body is the error text. -/
def respond : Outcome → Response
  | .success m => ⟨200, some (MAX_AGE % 2 ^ 32), .json m⟩
  | .failure e => ⟨500, none, .text e⟩

/-- The full `link_preview` handler on one request (`src/main.rs` lines
126-148), given the current time and the outcome the fetch + parse step
would produce on a miss: the cache-aside round followed by the response
mapping.  Returns the response and the cache afterwards. -/
def link_preview (c : CacheMap) (now : Nat) (url : String) (compute : Outcome) :
    Response × CacheMap :=
  let r := get_or_compute c now url compute
  (respond r.outcome, r.cache)

/-! ## Helper lemmas on UTF-8 validity and `valid_up_to` -/

/-- Unfolding of `utf8Valid` on a cons cell, stated for an arbitrary
tail. -/
theorem utf8Valid_cons (b : Nat) (rest : List Nat) :
    utf8Valid (b :: rest) =
      if b ≤ 0x7F then utf8Valid rest
      else if b < 0xC2 then false
      else if b ≤ 0xDF then
        (match rest with
         | c1 :: rest2 => isCont c1 && utf8Valid rest2
         | [] => false)
      else if b ≤ 0xEF then
        (match rest with
         | c1 :: c2 :: rest2 => cont3 b c1 && isCont c2 && utf8Valid rest2
         | _ => false)
      else if b ≤ 0xF4 then
        (match rest with
         | c1 :: c2 :: c3 :: rest2 =>
             cont4 b c1 && isCont c2 && isCont c3 && utf8Valid rest2
         | _ => false)
      else false := by
  rcases rest with _ | ⟨c1, _ | ⟨c2, _ | ⟨c3, r⟩⟩⟩ <;> rfl

/-- Concatenating two valid UTF-8 byte sequences yields a valid one. -/
theorem utf8Valid_append (a b : List Nat) (ha : utf8Valid a = true)
    (hb : utf8Valid b = true) : utf8Valid (a ++ b) = true := by
  induction a using utf8Valid.induct with
  | case1 => simpa using hb
  | case2 x rest h ih =>
      rw [utf8Valid_cons, if_pos h] at ha
      rw [List.cons_append, utf8Valid_cons, if_pos h]
      exact ih ha
  | case3 x rest h1 h2 =>
      rw [utf8Valid_cons, if_neg h1, if_pos h2] at ha
      exact absurd ha (by simp)
  | case4 x h1 h2 h3 c1 rest2 ih =>
      rw [utf8Valid_cons, if_neg h1, if_neg h2, if_pos h3] at ha
      rw [List.cons_append, List.cons_append, utf8Valid_cons,
        if_neg h1, if_neg h2, if_pos h3]
      simp_all
  | case5 x h1 h2 h3 =>
      rw [utf8Valid_cons, if_neg h1, if_neg h2, if_pos h3] at ha
      exact absurd ha (by simp)
  | case6 x h1 h2 h3 h4 c1 c2 rest2 ih =>
      rw [utf8Valid_cons, if_neg h1, if_neg h2, if_neg h3, if_pos h4] at ha
      rw [List.cons_append, List.cons_append, List.cons_append, utf8Valid_cons,
        if_neg h1, if_neg h2, if_neg h3, if_pos h4]
      simp_all
  | case7 x rest h1 h2 h3 h4 hshape =>
      rw [utf8Valid_cons, if_neg h1, if_neg h2, if_neg h3, if_pos h4] at ha
      rcases rest with _ | ⟨c1, _ | ⟨c2, r⟩⟩
      · exact absurd ha (by simp)
      · exact absurd ha (by simp)
      · exact absurd rfl (hshape c1 c2 r)
  | case8 x h1 h2 h3 h4 h5 c1 c2 c3 rest2 ih =>
      rw [utf8Valid_cons, if_neg h1, if_neg h2, if_neg h3, if_neg h4, if_pos h5] at ha
      rw [List.cons_append, List.cons_append, List.cons_append, List.cons_append,
        utf8Valid_cons, if_neg h1, if_neg h2, if_neg h3, if_neg h4, if_pos h5]
      simp_all
  | case9 x rest h1 h2 h3 h4 h5 hshape =>
      rw [utf8Valid_cons, if_neg h1, if_neg h2, if_neg h3, if_neg h4, if_pos h5] at ha
      rcases rest with _ | ⟨c1, _ | ⟨c2, _ | ⟨c3, r⟩⟩⟩
      · exact absurd ha (by simp)
      · exact absurd ha (by simp)
      · exact absurd ha (by simp)
      · exact absurd rfl (hshape c1 c2 c3 r)
  | case10 x rest h1 h2 h3 h4 h5 =>
      rw [utf8Valid_cons, if_neg h1, if_neg h2, if_neg h3, if_neg h4, if_neg h5] at ha
      exact absurd ha (by simp)

/-- The scan result never exceeds its bound. -/
theorem validEndAux_le (bs : List Nat) (n : Nat) : validEndAux bs n ≤ n := by
  induction n with
  | zero => simp [validEndAux]
  | succ n ih =>
      rw [validEndAux]
      split
      · exact Nat.le_refl _
      · exact Nat.le_succ_of_le ih

/-- The prefix selected by the scan is valid UTF-8. -/
theorem validEndAux_valid (bs : List Nat) (n : Nat) :
    utf8Valid (bs.take (validEndAux bs n)) = true := by
  induction n with
  | zero =>
      simp only [validEndAux, List.take_zero]
      rfl
  | succ n ih =>
      rw [validEndAux]
      split
      · assumption
      · exact ih

/-- The scan result is maximal: any valid prefix length within the bound
is at most the scan result. -/
theorem validEndAux_maximal (bs : List Nat) (n m : Nat) (hm : m ≤ n)
    (hv : utf8Valid (bs.take m) = true) : m ≤ validEndAux bs n := by
  induction n with
  | zero => simpa [validEndAux] using hm
  | succ n ih =>
      rw [validEndAux]
      split
      · exact hm
      · rcases Nat.lt_or_ge m (n + 1) with hlt | hge
        · exact ih (Nat.lt_succ_iff.mp hlt)
        · have : m = n + 1 := Nat.le_antisymm hm hge
          subst this
          simp_all

/-- `valid_up_to` never exceeds the slice length. -/
theorem utf8ValidEnd_le (bs : List Nat) : utf8ValidEnd bs ≤ bs.length :=
  validEndAux_le bs bs.length

/-- The prefix of length `valid_up_to` is valid UTF-8 (the property Rust
guarantees for `from_utf8(&input[..e.valid_up_to()])`). -/
theorem utf8ValidEnd_valid (bs : List Nat) :
    utf8Valid (bs.take (utf8ValidEnd bs)) = true :=
  validEndAux_valid bs bs.length

/-- `valid_up_to` is the largest valid prefix length. -/
theorem utf8ValidEnd_maximal (bs : List Nat) (m : Nat) (hm : m ≤ bs.length)
    (hv : utf8Valid (bs.take m) = true) : m ≤ utf8ValidEnd bs :=
  validEndAux_maximal bs bs.length m hm hv

/-! ## Helper lemmas on the fetch loop -/

/-- Soundness invariant of the chunk loop: starting from a valid
accumulator whose length equals the byte counter, any successful result
is valid UTF-8 and no longer than `MAX_SIZE`. -/
theorem fetchTextLoop_sound (chunks : List (List Nat)) :
    ∀ (text : List Nat) (total : Nat) (out : List Nat),
      utf8Valid text = true → text.length = total → total ≤ MAX_SIZE →
      fetchTextLoop chunks text total = some out →
      out.length ≤ MAX_SIZE ∧ utf8Valid out = true := by
  induction chunks with
  | nil =>
      intro text total out hv hl hle h
      simp only [fetchTextLoop, Option.some.injEq] at h
      subst h
      exact ⟨hl ▸ hle, hv⟩
  | cons chunk rest ih =>
      intro text total out hv hl hle h
      simp only [fetchTextLoop] at h
      by_cases hfit : total + chunk.length ≤ MAX_SIZE
      · rw [if_pos hfit] at h
        by_cases hcv : utf8Valid chunk = true
        · rw [if_pos hcv] at h
          exact ih _ _ _ (utf8Valid_append _ _ hv hcv)
            (by simp [hl]) hfit h
        · rw [if_neg hcv] at h
          exact absurd h (by simp)
      · rw [if_neg hfit] at h
        by_cases hrem : MAX_SIZE - total = 0
        · rw [if_pos hrem] at h
          simp only [Option.some.injEq] at h
          subst h
          exact ⟨hl ▸ hle, hv⟩
        · rw [if_neg hrem] at h
          by_cases hk0 : 0 < utf8ValidEnd (chunk.take (MAX_SIZE - total))
          · rw [if_pos hk0, if_pos (utf8ValidEnd_valid (chunk.take (MAX_SIZE - total)))] at h
            simp only [Option.some.injEq] at h
            subst h
            constructor
            · have h1 := utf8ValidEnd_le (chunk.take (MAX_SIZE - total))
              have h2 : (chunk.take (MAX_SIZE - total)).length ≤ MAX_SIZE - total := by
                simp [List.length_take]
              simp only [List.length_append, List.length_take]
              omega
            · exact utf8Valid_append _ _ hv (utf8ValidEnd_valid _)
          · rw [if_neg hk0] at h
            simp only [Option.some.injEq] at h
            subst h
            exact ⟨hl ▸ hle, hv⟩

/-- If every chunk fits (the running total never passes `MAX_SIZE`) and
every chunk alone is valid UTF-8, the loop appends all chunks. -/
theorem fetchTextLoop_all_fit (chunks : List (List Nat)) :
    ∀ (text : List Nat) (total : Nat),
      (∀ c ∈ chunks, utf8Valid c = true) →
      total + (chunks.map List.length).sum ≤ MAX_SIZE →
      fetchTextLoop chunks text total = some (text ++ chunks.flatten) := by
  induction chunks with
  | nil =>
      intro text total _ _
      simp [fetchTextLoop]
  | cons chunk rest ih =>
      intro text total hval hsize
      simp only [List.map_cons, List.sum_cons] at hsize
      have hfit : total + chunk.length ≤ MAX_SIZE := by omega
      have hcv : utf8Valid chunk = true := hval chunk (by simp)
      simp only [fetchTextLoop, if_pos hfit, if_pos hcv]
      rw [ih (text ++ chunk) (total + chunk.length)
        (fun c hc => hval c (by simp [hc])) (by omega)]
      simp

/-- If the chunks before `chunk` all fit and are valid, and `chunk` also
fits in full but is not valid UTF-8 on its own, the loop fails. -/
theorem fetchTextLoop_invalid_chunk (pre : List (List Nat)) :
    ∀ (chunk : List Nat) (rest : List (List Nat)) (text : List Nat) (total : Nat),
      (∀ c ∈ pre, utf8Valid c = true) →
      total + (pre.map List.length).sum + chunk.length ≤ MAX_SIZE →
      utf8Valid chunk = false →
      fetchTextLoop (pre ++ chunk :: rest) text total = none := by
  induction pre with
  | nil =>
      intro chunk rest text total _ hsize hinv
      simp only [List.map_nil, List.sum_nil, Nat.add_zero] at hsize
      simp only [List.nil_append, fetchTextLoop, if_pos hsize]
      rw [if_neg (by simp [hinv])]
  | cons c pre ih =>
      intro chunk rest text total hval hsize hinv
      simp only [List.map_cons, List.sum_cons] at hsize
      have hcv : utf8Valid c = true := hval c (by simp)
      have hfit : total + c.length ≤ MAX_SIZE := by omega
      simp only [List.cons_append, fetchTextLoop, if_pos hfit, if_pos hcv]
      exact ih chunk rest (text ++ c) (total + c.length)
        (fun d hd => hval d (by simp [hd])) (by omega) hinv

/-! ## Claim theorems -/

/-- C1: for every sequence of response-body chunks, a successful
`fetch_text` result has byte length at most `MAX_SIZE` (1 MiB) and is
valid UTF-8 end-to-end, including when truncation occurred mid-stream. -/
theorem fetch_text_cap_and_valid (chunks : List (List Nat)) (out : List Nat)
    (h : fetch_text chunks = some out) :
    out.length ≤ MAX_SIZE ∧ utf8Valid out = true :=
  fetchTextLoop_sound chunks [] 0 out rfl rfl (Nat.zero_le _) h

theorem fetch_text_cap_and_valid_witness :
    ([0x68, 0x69] : List Nat).length ≤ MAX_SIZE ∧
      utf8Valid [0x68, 0x69] = true :=
  fetch_text_cap_and_valid [[0x68, 0x69]] [0x68, 0x69] (by decide)

/-- C2, counterexample to the claim as stated: the two-chunk input
`[[0xC3], [0xA9]]` has total size 2 ≤ `MAX_SIZE` and a concatenation
that is valid UTF-8 (the single character `é`), yet `fetch_text` returns
an error rather than the concatenation, because the first chunk alone is
not valid UTF-8. -/
theorem fetch_text_concat_only_counterexample :
    (([[0xC3], [0xA9]] : List (List Nat)).map List.length).sum ≤ MAX_SIZE ∧
    utf8Valid ([[0xC3], [0xA9]] : List (List Nat)).flatten = true ∧
    fetch_text [[0xC3], [0xA9]] = none ∧
    fetch_text [[0xC3], [0xA9]] ≠
      some ([[0xC3], [0xA9]] : List (List Nat)).flatten := by
  refine ⟨by decide, by decide, by decide, by decide⟩

/-- C2, amended: for every sequence of chunks, each of which is
individually valid UTF-8, whose total byte length is at or under
`MAX_SIZE`, `fetch_text` returns exactly the concatenation of all
chunks, byte for byte, with no truncation applied. -/
theorem fetch_text_under_cap_exact (chunks : List (List Nat))
    (hval : ∀ c ∈ chunks, utf8Valid c = true)
    (hsize : (chunks.map List.length).sum ≤ MAX_SIZE) :
    fetch_text chunks = some chunks.flatten := by
  have h := fetchTextLoop_all_fit chunks [] 0 hval (by simpa using hsize)
  simpa [fetch_text] using h

theorem fetch_text_under_cap_exact_witness :
    fetch_text [[0x41], [0xC3, 0xA9]] = some [0x41, 0xC3, 0xA9] := by
  have h := fetch_text_under_cap_exact [[0x41], [0xC3, 0xA9]] (by decide) (by decide)
  simpa using h

/-- C3: when appending a chunk would exceed the cap, the loop appends
exactly the largest prefix of the first `remaining`-budget bytes of that
chunk that is valid UTF-8 (never splitting a multi-byte character),
discards the rest, and reads no further chunks (`rest` does not occur in
the result); when zero budget remains it stops immediately, appending
nothing from the chunk. -/
theorem fetch_text_truncation_boundary (chunk : List Nat) (rest : List (List Nat))
    (text : List Nat) (total : Nat)
    (hle : total ≤ MAX_SIZE) (hover : MAX_SIZE < total + chunk.length) :
    (MAX_SIZE - total = 0 → fetchTextLoop (chunk :: rest) text total = some text) ∧
    (0 < MAX_SIZE - total →
      fetchTextLoop (chunk :: rest) text total =
        some (text ++ (chunk.take (MAX_SIZE - total)).take
          (utf8ValidEnd (chunk.take (MAX_SIZE - total)))) ∧
      utf8Valid ((chunk.take (MAX_SIZE - total)).take
        (utf8ValidEnd (chunk.take (MAX_SIZE - total)))) = true ∧
      ∀ m ≤ (chunk.take (MAX_SIZE - total)).length,
        utf8Valid ((chunk.take (MAX_SIZE - total)).take m) = true →
        m ≤ utf8ValidEnd (chunk.take (MAX_SIZE - total))) := by
  constructor
  · intro hrem
    simp only [fetchTextLoop]
    rw [if_neg (by omega : ¬ total + chunk.length ≤ MAX_SIZE), if_pos hrem]
  · intro hrem
    refine ⟨?_, utf8ValidEnd_valid _, fun m hm hv => utf8ValidEnd_maximal _ m hm hv⟩
    simp only [fetchTextLoop]
    rw [if_neg (by omega : ¬ total + chunk.length ≤ MAX_SIZE),
      if_neg (by omega : ¬ MAX_SIZE - total = 0)]
    by_cases hk : 0 < utf8ValidEnd (chunk.take (MAX_SIZE - total))
    · rw [if_pos hk, if_pos (utf8ValidEnd_valid _)]
    · rw [if_neg hk]
      have h0 : utf8ValidEnd (chunk.take (MAX_SIZE - total)) = 0 := by omega
      rw [h0]
      simp

theorem fetch_text_truncation_boundary_witness :
    fetchTextLoop [[0xC3, 0xA9, 0x41], [0x42]] [0x61] 1048574 =
      some [0x61, 0xC3, 0xA9] := by
  have h := (fetch_text_truncation_boundary [0xC3, 0xA9, 0x41] [[0x42]]
    [0x61] 1048574 (by decide) (by decide)).2 (by decide)
  rw [h.1]
  decide

/-- C9 (implicit): the success of `fetch_text` depends on chunk
boundaries, not only on the concatenated body: if a chunk that is
appended in full is not by itself valid UTF-8, the whole fetch fails,
whatever the chunks before (as long as they fit and are valid) and
whatever comes after — in particular even when the concatenated body is
valid UTF-8 and under the cap. -/
theorem fetch_text_split_char_error (pre : List (List Nat)) (chunk : List Nat)
    (rest : List (List Nat))
    (hpre : ∀ c ∈ pre, utf8Valid c = true)
    (hsize : (pre.map List.length).sum + chunk.length ≤ MAX_SIZE)
    (hinv : utf8Valid chunk = false) :
    fetch_text (pre ++ chunk :: rest) = none :=
  fetchTextLoop_invalid_chunk pre chunk rest [] 0 hpre (by simpa using hsize) hinv

theorem fetch_text_split_char_error_witness :
    utf8Valid ([[0xC3], [0xA9]] : List (List Nat)).flatten = true ∧
    fetch_text ([] ++ [0xC3] :: [[0xA9]]) = none :=
  ⟨by decide,
    fetch_text_split_char_error [] [0xC3] [[0xA9]] (by decide) (by decide) (by decide)⟩

/-- C10 (implicit): in the truncation branch, invalid UTF-8 bytes inside
the budgeted prefix do not cause an error: the loop appends only the
bytes up to the largest valid prefix (`valid_up_to`), silently discards
everything after it, and still succeeds — and the appended prefix is
then strictly shorter than the budgeted bytes, so a non-decodable byte
that would abort the fetch on the full-append path is swallowed here. -/
theorem fetch_text_overflow_swallows_invalid (chunk : List Nat)
    (rest : List (List Nat)) (text : List Nat) (total : Nat)
    (hover : MAX_SIZE < total + chunk.length)
    (hbad : utf8Valid (chunk.take (MAX_SIZE - total)) = false) :
    fetchTextLoop (chunk :: rest) text total =
      some (text ++ (chunk.take (MAX_SIZE - total)).take
        (utf8ValidEnd (chunk.take (MAX_SIZE - total)))) ∧
    utf8ValidEnd (chunk.take (MAX_SIZE - total)) <
      (chunk.take (MAX_SIZE - total)).length := by
  have hrem : ¬ MAX_SIZE - total = 0 := by
    intro h0
    rw [h0, List.take_zero] at hbad
    exact absurd hbad (by decide)
  have hlt : utf8ValidEnd (chunk.take (MAX_SIZE - total)) <
      (chunk.take (MAX_SIZE - total)).length := by
    rcases Nat.lt_or_ge (utf8ValidEnd (chunk.take (MAX_SIZE - total)))
      (chunk.take (MAX_SIZE - total)).length with hlt | hge
    · exact hlt
    · have heq : utf8ValidEnd (chunk.take (MAX_SIZE - total)) =
          (chunk.take (MAX_SIZE - total)).length :=
        Nat.le_antisymm (utf8ValidEnd_le _) hge
      have := utf8ValidEnd_valid (chunk.take (MAX_SIZE - total))
      rw [heq, List.take_length] at this
      rw [this] at hbad
      exact absurd hbad (by decide)
  refine ⟨?_, hlt⟩
  simp only [fetchTextLoop]
  rw [if_neg (by omega : ¬ total + chunk.length ≤ MAX_SIZE), if_neg hrem]
  by_cases hk : 0 < utf8ValidEnd (chunk.take (MAX_SIZE - total))
  · rw [if_pos hk, if_pos (utf8ValidEnd_valid _)]
  · rw [if_neg hk]
    have h0 : utf8ValidEnd (chunk.take (MAX_SIZE - total)) = 0 := by omega
    rw [h0]
    simp

theorem fetch_text_overflow_swallows_invalid_witness :
    fetchTextLoop [[0xFF, 0x41], [0x42]] [0x61] 1048575 = some [0x61] ∧
    utf8Valid [0xFF, 0x41] = false := by
  have h := fetch_text_overflow_swallows_invalid [0xFF, 0x41] [[0x42]]
    [0x61] 1048575 (by decide) (by decide)
  refine ⟨?_, by decide⟩
  rw [h.1]
  decide


/-! ## Helper lemmas on the cache model -/

/-- Unfolding of `cacheFind` on a cons cell. -/
theorem cacheFind_cons (k : String) (v : Outcome × Nat) (rest : CacheMap)
    (url : String) :
    cacheFind ((k, v) :: rest) url =
      if k = url then some v else cacheFind rest url := rfl

/-- A lookup right after an insert under the same key sees the new
entry. -/
theorem cacheFind_insert_self (c : CacheMap) (url : String) (out : Outcome)
    (now : Nat) :
    cacheFind (cacheInsert c url out now) url = some (out, now) := by
  rw [cacheInsert, cacheFind_cons, if_pos rfl]

/-- An insert under one key leaves lookups under any other key
unchanged. -/
theorem cacheFind_insert_other (c : CacheMap) (url url' : String)
    (out : Outcome) (now : Nat) (h : url ≠ url') :
    cacheFind (cacheInsert c url out now) url' = cacheFind c url' := by
  rw [cacheInsert, cacheFind_cons, if_neg h]

/-- `cacheGet` through a found entry: live while `now < t + MAX_AGE`. -/
theorem cacheGet_of_find (c : CacheMap) (now : Nat) (url : String)
    (out : Outcome) (t : Nat) (h : cacheFind c url = some (out, t)) :
    cacheGet c now url = if now < t + MAX_AGE then some out else none := by
  rw [cacheGet, h]

/-- `cacheGet` on a key with no entry. -/
theorem cacheGet_of_find_none (c : CacheMap) (now : Nat) (url : String)
    (h : cacheFind c url = none) : cacheGet c now url = none := by
  rw [cacheGet, h]

/-- A hit returns the stored outcome, leaves the cache untouched and
performs no fetch. -/
theorem get_or_compute_hit (c : CacheMap) (now : Nat) (url : String)
    (comp out : Outcome) (h : cacheGet c now url = some out) :
    get_or_compute c now url comp = ⟨out, c, false⟩ := by
  rw [get_or_compute, h]

/-- A miss computes, stores the result with the current timestamp and
reports that a fetch ran. -/
theorem get_or_compute_miss (c : CacheMap) (now : Nat) (url : String)
    (comp : Outcome) (h : cacheGet c now url = none) :
    get_or_compute c now url comp = ⟨comp, cacheInsert c url comp now, true⟩ := by
  rw [get_or_compute, h]

/-- C4: two successive `get_or_compute` calls for the same URL, the
second while the entry left by the first is still live (no intervening
TTL expiry, expressed through the stored timestamp `t`), return the
identical outcome, and the second call performs no fetch. -/
theorem cache_idempotent (c : CacheMap) (now1 now2 : Nat) (url : String)
    (comp1 comp2 : Outcome) (t : Nat)
    (h1 : (cacheFind (get_or_compute c now1 url comp1).cache url).map Prod.snd
      = some t)
    (h2 : now2 < t + MAX_AGE) :
    (get_or_compute (get_or_compute c now1 url comp1).cache now2 url comp2).outcome
      = (get_or_compute c now1 url comp1).outcome ∧
    (get_or_compute (get_or_compute c now1 url comp1).cache now2 url comp2).fetched
      = false := by
  cases hg : cacheGet c now1 url with
  | some out =>
      have e1 : get_or_compute c now1 url comp1 = ⟨out, c, false⟩ :=
        get_or_compute_hit c now1 url comp1 out hg
      cases hf : cacheFind c url with
      | none =>
          rw [cacheGet_of_find_none c now1 url hf] at hg
          exact absurd hg (by simp)
      | some p =>
          obtain ⟨out0, t0⟩ := p
          rw [cacheGet_of_find c now1 url out0 t0 hf] at hg
          have ht : t0 = t := by
            have h1' := h1
            rw [e1] at h1'
            simp only at h1'
            rw [hf] at h1'
            simpa using h1'
          subst ht
          have hout : out0 = out := by
            by_cases hc : now1 < t0 + MAX_AGE
            · rw [if_pos hc] at hg
              exact Option.some.inj hg
            · rw [if_neg hc] at hg
              exact absurd hg (by simp)
          have hg2 : cacheGet c now2 url = some out := by
            rw [cacheGet_of_find c now2 url out0 t0 hf, if_pos h2, hout]
          rw [e1, get_or_compute_hit c now2 url comp2 out hg2]
          exact ⟨rfl, rfl⟩
  | none =>
      have e1 : get_or_compute c now1 url comp1
          = ⟨comp1, cacheInsert c url comp1 now1, true⟩ :=
        get_or_compute_miss c now1 url comp1 hg
      have ht : now1 = t := by
        have h1' := h1
        rw [e1] at h1'
        simp only at h1'
        rw [cacheFind_insert_self] at h1'
        simpa using h1'
      subst ht
      have hg2 : cacheGet (cacheInsert c url comp1 now1) now2 url = some comp1 := by
        rw [cacheGet_of_find _ now2 url comp1 now1 (cacheFind_insert_self c url comp1 now1),
          if_pos h2]
      rw [e1, get_or_compute_hit _ now2 url comp2 comp1 hg2]
      exact ⟨rfl, rfl⟩

theorem cache_idempotent_witness :
    (get_or_compute (get_or_compute [] 0 "https://example.com"
        (Outcome.failure "boom")).cache 1 "https://example.com"
        (Outcome.failure "other")).outcome
      = (get_or_compute ([] : CacheMap) 0 "https://example.com"
        (Outcome.failure "boom")).outcome ∧
    (get_or_compute (get_or_compute [] 0 "https://example.com"
        (Outcome.failure "boom")).cache 1 "https://example.com"
        (Outcome.failure "other")).fetched = false :=
  cache_idempotent [] 0 1 "https://example.com"
    (Outcome.failure "boom") (Outcome.failure "other") 0 (by decide) (by decide)

/-- C5: a fetch/parse failure is stored in the cache as a failure
outcome carrying its textual error message, and a subsequent request for
the same URL within the TTL returns that exact stored error text with no
fetch (negative caching, identical to how successes are cached). -/
theorem negative_caching (c : CacheMap) (now1 now2 : Nat) (url : String)
    (msg : String) (comp2 : Outcome)
    (hmiss : cacheGet c now1 url = none)
    (hlive : now2 < now1 + MAX_AGE) :
    (get_or_compute c now1 url (Outcome.failure msg)).outcome
      = Outcome.failure msg ∧
    cacheFind (get_or_compute c now1 url (Outcome.failure msg)).cache url
      = some (Outcome.failure msg, now1) ∧
    (get_or_compute (get_or_compute c now1 url (Outcome.failure msg)).cache
        now2 url comp2).outcome = Outcome.failure msg ∧
    (get_or_compute (get_or_compute c now1 url (Outcome.failure msg)).cache
        now2 url comp2).fetched = false := by
  have hfind := cacheFind_insert_self c url (Outcome.failure msg) now1
  have hget : cacheGet (cacheInsert c url (Outcome.failure msg) now1) now2 url
      = some (Outcome.failure msg) := by
    rw [cacheGet_of_find _ now2 url _ now1 hfind, if_pos hlive]
  rw [get_or_compute_miss c now1 url (Outcome.failure msg) hmiss]
  refine ⟨rfl, hfind, ?_, ?_⟩
  · show (get_or_compute (cacheInsert c url (Outcome.failure msg) now1)
        now2 url comp2).outcome = Outcome.failure msg
    rw [get_or_compute_hit _ now2 url comp2 _ hget]
  · show (get_or_compute (cacheInsert c url (Outcome.failure msg) now1)
        now2 url comp2).fetched = false
    rw [get_or_compute_hit _ now2 url comp2 _ hget]

theorem negative_caching_witness :
    (get_or_compute [] 5 "https://down.example"
      (Outcome.failure "connection refused")).outcome
        = Outcome.failure "connection refused" ∧
    cacheFind (get_or_compute [] 5 "https://down.example"
      (Outcome.failure "connection refused")).cache "https://down.example"
        = some (Outcome.failure "connection refused", 5) ∧
    (get_or_compute (get_or_compute [] 5 "https://down.example"
        (Outcome.failure "connection refused")).cache 100 "https://down.example"
        (Outcome.success ⟨none, none, none, none, none, none, none, none, none,
          none⟩)).outcome = Outcome.failure "connection refused" ∧
    (get_or_compute (get_or_compute [] 5 "https://down.example"
        (Outcome.failure "connection refused")).cache 100 "https://down.example"
        (Outcome.success ⟨none, none, none, none, none, none, none, none, none,
          none⟩)).fetched = false :=
  negative_caching [] 5 100 "https://down.example" "connection refused"
    (Outcome.success ⟨none, none, none, none, none, none, none, none, none, none⟩)
    (by decide) (by decide)

/-- C6: cache keys are the raw URL strings with no normalization — for
any two distinct URL strings, a store under one never overwrites or
shadows the entry of the other, and lookups for one never observe a
store for the other (whether done directly or through a
`get_or_compute` round). -/
theorem key_exactness (c : CacheMap) (url1 url2 : String) (out : Outcome)
    (t now : Nat) (hne : url1 ≠ url2) :
    cacheFind (cacheInsert c url1 out t) url2 = cacheFind c url2 ∧
    cacheGet (cacheInsert c url1 out t) now url2 = cacheGet c now url2 ∧
    ∀ now1 comp,
      cacheFind (get_or_compute c now1 url1 comp).cache url2 = cacheFind c url2 := by
  have hfind := cacheFind_insert_other c url1 url2 out t hne
  refine ⟨hfind, ?_, ?_⟩
  · rw [cacheGet, cacheGet, hfind]
  · intro now1 comp
    cases hg : cacheGet c now1 url1 with
    | some out0 => rw [get_or_compute_hit c now1 url1 comp out0 hg]
    | none =>
        rw [get_or_compute_miss c now1 url1 comp hg]
        simp only
        exact cacheFind_insert_other c url1 url2 comp now1 hne

theorem key_exactness_witness :
    cacheFind (cacheInsert [] "http://a/" (Outcome.failure "e") 0) "http://a"
      = cacheFind [] "http://a" ∧
    cacheGet (cacheInsert [] "http://a/" (Outcome.failure "e") 0) 0 "http://a"
      = cacheGet [] 0 "http://a" ∧
    ∀ now1 comp,
      cacheFind (get_or_compute [] now1 "http://a/" comp).cache "http://a"
        = cacheFind [] "http://a" :=
  key_exactness [] "http://a/" "http://a" (Outcome.failure "e") 0 0 (by decide)

/-- C7: the response mapping is total and exclusive over the outcome: a
success yields a 200 response carrying the serialized metadata and a
`Cache-Control: max-age` equal to the TTL (86400), a failure yields a
500 response whose body is the error text verbatim, and the status
discriminates the two cases. -/
theorem respond_total_exclusive (o : Outcome) :
    (∀ m, o = Outcome.success m →
      respond o = ⟨200, some MAX_AGE, Body.json m⟩) ∧
    (∀ e, o = Outcome.failure e →
      respond o = ⟨500, none, Body.text e⟩) ∧
    ((respond o).status = 200 ↔ ∃ m, o = Outcome.success m) ∧
    ((respond o).status = 500 ↔ ∃ e, o = Outcome.failure e) := by
  cases o with
  | success m =>
      refine ⟨?_, ?_, ?_, ?_⟩
      · intro m' hm
        injection hm with hm
        subst hm
        simp only [respond]
        rw [Nat.mod_eq_of_lt (by decide : MAX_AGE < 2 ^ 32)]
      · intro e he
        exact absurd he (by simp)
      · simp [respond]
      · simp [respond]
  | failure e =>
      refine ⟨?_, ?_, ?_, ?_⟩
      · intro m' hm
        exact absurd hm (by simp)
      · intro e' he
        injection he with he
        subst he
        rfl
      · simp [respond]
      · simp [respond]

theorem respond_total_exclusive_witness :
    respond (Outcome.success ⟨some "Example", none, none, none, none, none,
        none, none, none, none⟩)
      = ⟨200, some MAX_AGE, Body.json ⟨some "Example", none, none, none, none,
        none, none, none, none, none⟩⟩ ∧
    respond (Outcome.failure "boom") = ⟨500, none, Body.text "boom"⟩ :=
  ⟨(respond_total_exclusive _).1 _ rfl,
    ((respond_total_exclusive (Outcome.failure "boom")).2.1) _ rfl⟩

/-- C8: a cache entry whose age reaches the TTL is treated as absent on
lookup: a `get_or_compute` round at such a time takes the miss path,
performs a fetch, returns the freshly computed outcome, and overwrites
the entry with the new timestamp (so the new entry is live again). -/
theorem ttl_expiry (c : CacheMap) (url : String) (out : Outcome)
    (t now : Nat) (comp : Outcome)
    (hfind : cacheFind c url = some (out, t))
    (hexp : t + MAX_AGE ≤ now) :
    cacheGet c now url = none ∧
    (get_or_compute c now url comp).fetched = true ∧
    (get_or_compute c now url comp).outcome = comp ∧
    cacheFind (get_or_compute c now url comp).cache url = some (comp, now) ∧
    cacheGet (get_or_compute c now url comp).cache now url = some comp := by
  have hget : cacheGet c now url = none := by
    rw [cacheGet_of_find c now url out t hfind, if_neg (by omega)]
  have hfind2 := cacheFind_insert_self c url comp now
  rw [get_or_compute_miss c now url comp hget]
  refine ⟨hget, rfl, rfl, hfind2, ?_⟩
  show cacheGet (cacheInsert c url comp now) now url = some comp
  rw [cacheGet_of_find _ now url comp now hfind2,
    if_pos (Nat.lt_add_of_pos_right (by decide : 0 < MAX_AGE))]

theorem ttl_expiry_witness :
    cacheGet [("https://example.com", Outcome.failure "e", 0)] 86400
        "https://example.com" = none ∧
    (get_or_compute [("https://example.com", Outcome.failure "e", 0)] 86400
        "https://example.com" (Outcome.failure "f")).fetched = true ∧
    (get_or_compute [("https://example.com", Outcome.failure "e", 0)] 86400
        "https://example.com" (Outcome.failure "f")).outcome
      = Outcome.failure "f" ∧
    cacheFind (get_or_compute [("https://example.com", Outcome.failure "e", 0)]
        86400 "https://example.com" (Outcome.failure "f")).cache
        "https://example.com" = some (Outcome.failure "f", 86400) ∧
    cacheGet (get_or_compute [("https://example.com", Outcome.failure "e", 0)]
        86400 "https://example.com" (Outcome.failure "f")).cache 86400
        "https://example.com" = some (Outcome.failure "f") :=
  ttl_expiry [("https://example.com", Outcome.failure "e", 0)]
    "https://example.com" (Outcome.failure "e") 0 86400 (Outcome.failure "f")
    (by decide) (by decide)

end Metaservice
